import Mathlib

/-!
Verification of the jwtify service-worker library (TypeScript source:
`src/index.ts` and its revisions).  The development shallowly embeds the
credential pipeline: path parsing (`parsePath`), the JWT cache with its
background purge (`Cache`), the request coalescer (`Context.getJwt`,
modelled by `CoState.step`), and the fetch pipeline (`onFetch`).
JavaScript numbers (timestamps in seconds, delays in milliseconds) are
modelled as rationals; JS `Map`s as insertion-ordered association lists
(`List.lookup` is `Map.get`, in-place value update is `Map.set` on a
present key, appending is `Map.set` on a fresh key, `List.filter` with a
key test is `Map.delete`).
-/

namespace Jwtify

/-- Opencast event id (source: `type EventId = string`). -/
abbrev EventId := String

/-- A JSON value, as produced by `JSON.parse` on a JWT payload. -/
inductive Json where
  | null
  | bool (b : Bool)
  | num (q : Rat)
  | str (s : String)
  | arr (elems : List Json)
  | obj (fields : List (String × Json))

/-- Model of a JWT string.  The source treats a JWT as an opaque string whose
second dot-separated part is base64 text that the JS runtime chain
`atob` / `TextDecoder` / `JSON.parse` turns into a JSON value.  That chain is
the runtime's, not code of this repository, so a token is modelled by its raw
text together with the decoded payload; `payload = none` stands for any
failure of the chain (no second dot part, invalid base64, invalid UTF-8 or
invalid JSON, each of which throws in the source). -/
structure Jwt where
  raw : String
  payload : Option Json

/-- Source `expOfJwt`: extracts the `exp` claim from a JWT, throwing an error
if it is not valid.  The final check of the source is
`if (!("exp" in payload) || typeof payload.exp !== "number") throw ...`; a
payload that is not a JSON object also throws (the `in` operator throws a
`TypeError` on primitives, and on arrays the claim lookup fails). -/
def expOfJwt (jwt : Jwt) : Except String Rat :=
  match jwt.payload with
  | none => Except.error "JWT payload is not decodable"
  | some (Json.obj fields) =>
    match fields.lookup "exp" with
    | some (Json.num q) => Except.ok q
    | _ => Except.error "JWT does not have valid 'exp' claim"
  | some _ => Except.error "JWT does not have valid 'exp' claim"

/-- Source `ParsedPath` (the field `prefix` is spelled `pfx` here). -/
structure ParsedPath where
  pfx : String
  org : String
  channel : String
  eventId : String
  suffix : String
deriving DecidableEq

/-- JS `path.startsWith(p)`, on the character sequences. -/
def isPrefixList : List Char → List Char → Bool
  | [], _ => true
  | _ :: _, [] => false
  | a :: p, b :: s => a == b && isPrefixList p s

/-- JS `s.split(sep)` for a one-character separator: `"".split("/")` is
`[""]`, a separator at either end contributes an empty part. -/
def splitChar (sep : Char) : List Char → List (List Char)
  | [] => [[]]
  | c :: rest =>
    let r := splitChar sep rest
    if c == sep then [] :: r
    else
      match r with
      | [] => [[c]]
      | h :: t => (c :: h) :: t

/-- JS `parts.join(sep)` for a one-character separator. -/
def joinChar (sep : Char) : List (List Char) → List Char
  | [] => []
  | [x] => x
  | x :: xs => x ++ sep :: joinChar sep xs

/-- Source `parsePath`: find the first configured path prefix the path starts
with, strip `prefix.length + 1` characters (JS `slice` past the end is
`""`, as is `List.drop`), split the rest on `/`, and require at least four
parts.  Strings are handled through their character sequences (JS `.length`
counts UTF-16 units, which agrees with the character count on the ASCII
origin paths and prefixes this library handles). -/
def parsePath (path : String) (pathPfxs : List String) : Option ParsedPath :=
  match pathPfxs.find? (fun p => isPrefixList p.data path.data) with
  | none => none
  | some p =>
    let withoutPfx := path.data.drop (p.data.length + 1)
    let parts := splitChar '/' withoutPfx
    if parts.length < 4 then
      none
    else
      match parts with
      | org :: channel :: eventId :: suffix =>
        some { pfx := p, org := String.mk org, channel := String.mk channel,
               eventId := String.mk eventId,
               suffix := String.mk (joinChar '/' suffix) }
      | _ => none

/-- One cache entry: the decoded expiry (seconds since epoch) and the token. -/
structure CacheEntry where
  exp : Rat
  token : Jwt

/-- Source class `Cache`.  `tokens` is the JS `Map`; `purgePlanned` the flag;
`timers` models the multiset of purge timers outstanding in the JS runtime
(each entry an absolute deadline in seconds) — the source never stores them,
`setTimeout` does. -/
structure Cache where
  cacheMinTokenTimeLeft : Rat
  tokens : List (EventId × CacheEntry)
  purgePlanned : Bool
  timers : List Rat

/-- Source `Cache.get`: look the id up; a missing entry yields `null`; an
entry with `entry.exp < Date.now() / 1000 + cacheMinTokenTimeLeft` is
deleted and yields `null`; otherwise the token is returned.  `now` is
`Date.now() / 1000`. -/
def Cache.get (c : Cache) (now : Rat) (eventId : EventId) :
    Option Jwt × Cache :=
  match c.tokens.lookup eventId with
  | none => (none, c)
  | some entry =>
    if entry.exp < now + c.cacheMinTokenTimeLeft then
      (none, { c with tokens := c.tokens.filter (fun p => !(p.1 == eventId)) })
    else
      (some entry.token, c)

/-- `Math.min(...this.tokens.values().map(entry => entry.exp))`; the source
only evaluates this on a non-empty map (`add` inserts first, the purge
callback re-arms only when `size > 0`), so the `[]` case is junk. -/
def minExpOf : List (EventId × CacheEntry) → Rat
  | [] => 0
  | p :: ps => ps.foldl (fun a q => min a q.2.exp) p.2.exp

/-- Source `Cache.planPurge`: when no purge is planned, set the flag and
schedule a timer after `1000 * (nextExp - Date.now()/1000 -
cacheMinTokenTimeLeft) + 500` milliseconds; the timer is recorded as an
absolute deadline in seconds. -/
def Cache.planPurge (c : Cache) (now : Rat) : Cache :=
  if c.purgePlanned then c
  else
    let nextExp := minExpOf c.tokens
    let msTillStale := 1000 * (nextExp - now - c.cacheMinTokenTimeLeft)
    { c with purgePlanned := true,
             timers := c.timers ++ [now + (msTillStale + 500) / 1000] }

/-- Source `Cache.add`: decode the expiry (a throw propagates to the caller
before anything is touched), then either upgrade the present entry when the
new expiry is strictly later, insert a fresh entry, or leave the map alone;
finally `planPurge`. -/
def Cache.add (c : Cache) (now : Rat) (eventId : EventId) (token : Jwt) :
    Except String Unit × Cache :=
  match expOfJwt token with
  | Except.error m => (Except.error m, c)
  | Except.ok exp =>
    let c1 :=
      match c.tokens.lookup eventId with
      | some entry =>
        if entry.exp < exp then
          { c with tokens := c.tokens.map (fun (p : EventId × CacheEntry) =>
              if p.1 == eventId then (p.1, CacheEntry.mk exp token) else p) }
        else c
      | none =>
        { c with tokens := c.tokens ++ [(eventId, CacheEntry.mk exp token)] }
    (Except.ok (), c1.planPurge now)

/-- Source `Cache.purgeStaleEntries`: delete every entry with
`entry.exp < Date.now()/1000 + cacheMinTokenTimeLeft`. -/
def Cache.purgeStaleEntries (c : Cache) (now : Rat) : Cache :=
  let minExp := now + c.cacheMinTokenTimeLeft
  { c with tokens := c.tokens.filter (fun p => !(decide (p.2.exp < minExp))) }

/-- The body of the `setTimeout` callback armed by `planPurge`: sweep, clear
the flag, and re-arm when entries remain. -/
def Cache.firePurge (c : Cache) (now : Rat) : Cache :=
  let c1 := c.purgeStaleEntries now
  let c2 := { c1 with purgePlanned := false }
  if c2.tokens.length > 0 then c2.planPurge now else c2

/-- The events a cache instance experiences: an insertion, a lookup, or a
purge timer firing (the JS runtime delivers an armed timer at or after its
deadline). -/
inductive CacheEv where
  | add (now : Rat) (eventId : EventId) (token : Jwt)
  | get (now : Rat) (eventId : EventId)
  | fire (now : Rat)

/-- One event against the cache.  A `fire` consumes the outstanding timer
(none is a no-op, and a timer never fires before its deadline). -/
def Cache.step (c : Cache) : CacheEv → Cache
  | CacheEv.add now id tok => (c.add now id tok).2
  | CacheEv.get now id => (c.get now id).2
  | CacheEv.fire now =>
    match c.timers with
    | [] => c
    | d :: rest =>
      if d ≤ now then Cache.firePurge { c with timers := rest } now else c

/-- A fresh cache, as the constructor builds it. -/
def Cache.init (minLeft : Rat) : Cache :=
  { cacheMinTokenTimeLeft := minLeft, tokens := [], purgePlanned := false,
    timers := [] }

/-- Run a sequence of events. -/
def Cache.run (c : Cache) (es : List CacheEv) : Cache :=
  es.foldl Cache.step c

/-- The states a cache instance can reach from construction. -/
def Cache.Reachable (c : Cache) : Prop :=
  ∃ minLeft es, Cache.run (Cache.init minLeft) es = c

/-- The issuer's response: a JS `Map` from event ids to JWTs. -/
abbrev TokenMap := List (EventId × Jwt)

/-- The `config.getJwts` collaborator: called with a set of event ids, it
either resolves with a token map or rejects (`Except.error`). -/
abbrev Issuer := List EventId → Except Unit TokenMap

/-- Source `Context.getJwtsCallback`: call `config.getJwts` and catch any
error, logging it and returning `new Map()`. -/
def getJwtsCallback (issuer : Issuer) (ids : List EventId) : TokenMap :=
  match issuer ids with
  | Except.ok m => m
  | Except.error _ => []

/-- State of the coalescer (source `Context.batch` plus the observables of a
run).  `slot` is the open batch: its waiting callers in arrival order (each
caller a numbered `getJwt` execution suspended on `batch.task`, with the id
it asked for) together with `batch.eventIds` (a JS `Set`: deduplicated,
insertion-ordered).  `calls` records each issuer invocation's argument set,
oldest first; `results` each resolved caller with the value its `getJwt`
returned (`jwts.get(eventId) ?? null`). -/
structure CoState where
  slot : Option (List (Nat × EventId) × List EventId)
  calls : List (List EventId)
  results : List (Nat × Option Jwt)

/-- The coalescer's events: a `getJwt(eventId)` call arriving, or the open
batch's `setTimeout` callback running.  The source is single-threaded: the
mutations each event performs on the batch slot are synchronous, so an event
is atomic here; the issuer call itself is modelled by the oracle `Issuer`
function, and a caller that arrives while a previous batch's issuer call is
still in flight is an arrival after that batch's `fire`. -/
inductive CoEv where
  | arrive (caller : Nat) (eventId : EventId)
  | fire

/-- `batch.eventIds.add(eventId)` on a JS `Set`. -/
def addId (ids : List EventId) (id : EventId) : List EventId :=
  if ids.contains id then ids else ids ++ [id]

/-- Source `Context.getJwt` and the batch timer callback.  With
`batching = (config.batchWindow > 0)`:
an arrival joins the open batch or opens a fresh one; with batching disabled
it immediately performs a singleton issuer call and resolves.  `fire` is the
`setTimeout` body: it clears `this.batch` (detaching the id set) before the
issuer call, calls `getJwtsCallback` with the detached set, and resolves
every waiter of that batch with `jwts.get(eventId) ?? null`.  A `fire` with
no open batch cannot happen in the source (one timer per batch) and is a
no-op. -/
def CoState.step (batching : Bool) (issuer : Issuer) (s : CoState) :
    CoEv → CoState
  | CoEv.arrive c id =>
    if batching then
      match s.slot with
      | some (ws, ids) => { s with slot := some (ws ++ [(c, id)], addId ids id) }
      | none => { s with slot := some ([(c, id)], [id]) }
    else
      let resp := getJwtsCallback issuer [id]
      { s with calls := s.calls ++ [[id]],
               results := s.results ++ [(c, resp.lookup id)] }
  | CoEv.fire =>
    match s.slot with
    | none => s
    | some (ws, ids) =>
      let resp := getJwtsCallback issuer ids
      { slot := none,
        calls := s.calls ++ [ids],
        results := s.results ++ ws.map (fun w => (w.1, resp.lookup w.2)) }

/-- Run the coalescer over a sequence of events from a state. -/
def CoState.run (batching : Bool) (issuer : Issuer) (s : CoState)
    (es : List CoEv) : CoState :=
  es.foldl (CoState.step batching issuer) s

/-- The coalescer before any call: no open batch, nothing called, nothing
resolved. -/
def CoState.init : CoState :=
  { slot := none, calls := [], results := [] }

/-- An intercepted request, reduced to what `onFetch` inspects and builds:
the URL's origin and pathname, the headers, and whether the request uses
`mode: "cors"`. -/
structure Request where
  origin : String
  pathname : String
  headers : List (String × String)
  corsMode : Bool
deriving DecidableEq

/-- Header update: the object spread `{...headers, "Authorization": v}`
overrides a present key and appends a fresh one. -/
def setHeader (hs : List (String × String)) (k v : String) :
    List (String × String) :=
  if hs.any (fun h => h.1 == k) then
    hs.map (fun h => if h.1 == k then (k, v) else h)
  else hs ++ [(k, v)]

/-- What the `fetch` handler does with an intercepted request: return without
`respondWith` (the browser forwards the original request), respond with
`fetch(req)` for the built request, or let a thrown error reject the
`respondWith` promise. -/
inductive FetchOutcome where
  | passThrough
  | forwarded (req : Request)
  | errored (msg : String)
deriving DecidableEq

/-- The `new Request(event.request, {...})` clone of the source: `mode:
"cors"` when configured, and the `Authorization: Bearer <jwt>` header. -/
def injectJwt (cors : Bool) (req : Request) (jwt : Jwt) : Request :=
  { req with corsMode := if cors then true else req.corsMode,
             headers := setHeader req.headers "Authorization"
               ("Bearer " ++ jwt.raw) }

/-- Source `onFetch` (the revision with the cache and coalescer): untrusted
origin or unmatched path leave the request untouched; otherwise the cache is
consulted, on a miss the coalescer's answer `acquired` (what
`await ctx.getJwt(parsed.eventId)` returned) is used and, when it is a
token, inserted into the cache — a throw out of `Cache.add` propagates and
rejects the `respondWith` promise; finally the request goes out with the
bearer header exactly when a token was available. -/
def onFetch (trusted : List String) (pathPfxs : List String) (cors : Bool)
    (cache : Cache) (now : Rat) (acquired : Option Jwt) (req : Request) :
    FetchOutcome × Cache :=
  if !(trusted.contains req.origin) then (FetchOutcome.passThrough, cache)
  else
    match parsePath req.pathname pathPfxs with
    | none => (FetchOutcome.passThrough, cache)
    | some parsed =>
      match cache.get now parsed.eventId with
      | (some jwt, c1) => (FetchOutcome.forwarded (injectJwt cors req jwt), c1)
      | (none, c1) =>
        match acquired with
        | none => (FetchOutcome.forwarded req, c1)
        | some jwt =>
          match c1.add now parsed.eventId jwt with
          | (Except.error m, c2) => (FetchOutcome.errored m, c2)
          | (Except.ok _, c2) =>
            (FetchOutcome.forwarded (injectJwt cors req jwt), c2)

/-! Association-list lemmas shared by the cache proofs: `List.lookup` against
the delete (`filter` on the key) and the in-place update (`map` with an `if`
on the key) that model `Map.delete` and `Map.set`. -/

section AssocLemmas

variable {α β : Type} [BEq α] [LawfulBEq α]

theorem beq_symm_false (a b : α) (h : (a == b) = false) : (b == a) = false := by
  cases hx : b == a with
  | false => rfl
  | true =>
    have hab : b = a := eq_of_beq hx
    subst hab
    rw [beq_self_eq_true] at h
    exact Bool.noConfusion h

theorem lookup_filter_not_self (l : List (α × β)) (a : α) :
    (l.filter (fun p => !(p.1 == a))).lookup a = none := by
  induction l with
  | nil => rfl
  | cons hd tl ih =>
    cases hbeq : hd.1 == a with
    | true => simpa [List.filter_cons, hbeq] using ih
    | false =>
      have hb' : (a == hd.1) = false := beq_symm_false hd.1 a hbeq
      simp [List.filter_cons, hbeq, List.lookup, hb', ih]

theorem lookup_filter_ne (l : List (α × β)) (a b : α) (h : b ≠ a) :
    (l.filter (fun p => !(p.1 == a))).lookup b = l.lookup b := by
  induction l with
  | nil => rfl
  | cons hd tl ih =>
    cases hbeq : hd.1 == a with
    | true =>
      have hbk : (b == hd.1) = false := by
        cases hx : b == hd.1 with
        | false => rfl
        | true => exact absurd (by rw [eq_of_beq hx, eq_of_beq hbeq]) h
      simp [List.filter_cons, hbeq, List.lookup, hbk, ih]
    | false =>
      cases hbk : b == hd.1 with
      | true => simp [List.filter_cons, hbeq, List.lookup, hbk]
      | false => simp [List.filter_cons, hbeq, List.lookup, hbk, ih]

theorem lookup_map_update (l : List (α × β)) (a : α) (v : β) :
    (l.map (fun p => if p.1 == a then (p.1, v) else p)).lookup a =
      (l.lookup a).map (fun _ => v) := by
  induction l with
  | nil => rfl
  | cons hd tl ih =>
    simp only [List.map_cons]
    cases hbeq : hd.1 == a with
    | true =>
      have hb' : (a == hd.1) = true := by rw [eq_of_beq hbeq]; exact beq_self_eq_true a
      simp [List.lookup, hb', ih]
    | false =>
      have hb' : (a == hd.1) = false := beq_symm_false hd.1 a hbeq
      simp [List.lookup, hb', ih]

theorem lookup_map_update_ne (l : List (α × β)) (a b : α) (v : β) (h : b ≠ a) :
    (l.map (fun p => if p.1 == a then (p.1, v) else p)).lookup b =
      l.lookup b := by
  induction l with
  | nil => rfl
  | cons hd tl ih =>
    simp only [List.map_cons]
    cases hbeq : hd.1 == a with
    | true =>
      have hbk : (b == hd.1) = false := by
        cases hx : b == hd.1 with
        | false => rfl
        | true => exact absurd (by rw [eq_of_beq hx, eq_of_beq hbeq]) h
      simp [List.lookup, hbk, ih]
    | false =>
      cases hbk : b == hd.1 with
      | true => simp [List.lookup, hbk]
      | false => simp [List.lookup, hbk, ih]

theorem lookup_eq_none_of_forall_not_mem (l : List (α × β)) (a : α)
    (h : ∀ v : β, (a, v) ∉ l) : l.lookup a = none := by
  induction l with
  | nil => rfl
  | cons hd tl ih =>
    cases hbeq : a == hd.1 with
    | true =>
      have hmem : (a, hd.2) ∈ hd :: tl := by
        rw [eq_of_beq hbeq]
        exact List.mem_cons_self hd tl
      exact absurd hmem (h hd.2)
    | false =>
      simp only [List.lookup, hbeq]
      exact ih fun v hv => h v (List.mem_cons_of_mem hd hv)

end AssocLemmas

/-- The tokens map is untouched by `planPurge` (it only flips the flag and
schedules). -/
theorem Cache.planPurge_tokens (c : Cache) (now : Rat) :
    (c.planPurge now).tokens = c.tokens := by
  unfold Cache.planPurge
  split <;> rfl

/-- The safety margin is untouched by `planPurge`. -/
theorem Cache.planPurge_minLeft (c : Cache) (now : Rat) :
    (c.planPurge now).cacheMinTokenTimeLeft = c.cacheMinTokenTimeLeft := by
  unfold Cache.planPurge
  split <;> rfl

/-! Concrete values used by witnesses and counterexamples. -/

/-- A well-formed token: payload `{"exp": 10}`. -/
def tokenA : Jwt := { raw := "A", payload := some (Json.obj [("exp", Json.num 10)]) }

/-- A token whose payload decodes but carries no `exp` claim. -/
def tokenNoExp : Jwt := { raw := "B", payload := some (Json.obj []) }

/-- A token whose `exp` claim is present but not numeric. -/
def tokenStrExp : Jwt :=
  { raw := "C", payload := some (Json.obj [("exp", Json.str "later")]) }

/-- A cache holding `tokenA` for id `"e"` under a 5 second safety margin. -/
def cacheOne : Cache :=
  { cacheMinTokenTimeLeft := 5, tokens := [("e", CacheEntry.mk 10 tokenA)],
    purgePlanned := false, timers := [] }

/-- C1: the spec's own example refutes the claim on the code. `parsePath`
takes `path.slice(prefix.length + 1)` although every configured prefix ends
in `/`, so the first character after the prefix is swallowed: for prefixes
`["/static/"]` and path `/static/orgA/chanB/evt123/video.mp4` the code
returns org `"rgA"`, not the `"orgA"` the claim states (the earlier
revision's prefixes carried no trailing slash, where the `+ 1` skipped the
separator; the current code kept the `+ 1` by mistake). -/
theorem parsePath_drops_first_org_char :
    parsePath "/static/orgA/chanB/evt123/video.mp4" ["/static/"] =
      some { pfx := "/static/", org := "rgA", channel := "chanB",
             eventId := "evt123", suffix := "video.mp4" } ∧
    ("rgA" : String) ≠ "orgA" := by
  exact ⟨by decide, by decide⟩

/-- C2, counterexample to the strict freshness boundary: with margin 5 and a
cached expiry of 10, at call time `t = 5` the claimed freshness condition
`exp - minValidity > t` is false (5 > 5 fails), yet `Cache.get` returns the
cached token — the code evicts only on `exp < t + minValidity`, a strict
comparison on the other side. -/
theorem cache_get_strict_boundary_cex :
    ¬((10 : Rat) - 5 > 5) ∧ (cacheOne.get 5 "e").1 = some tokenA := by
  constructor
  · norm_num
  · norm_num [Cache.get, cacheOne]

/-- C2 (amended: freshness is non-strict, `exp - minValidity ≥ t`): for an id
with a cached entry, `Cache.get` returns the stored token exactly when
`exp - cacheMinTokenTimeLeft ≥ t`, and on a stale entry
(`exp - cacheMinTokenTimeLeft < t`) it deletes exactly that entry and
returns none. -/
theorem cache_get_freshness (c : Cache) (t : Rat) (id : EventId)
    (entry : CacheEntry) (h : c.tokens.lookup id = some entry) :
    ((c.get t id).1 = some entry.token ↔
      entry.exp - c.cacheMinTokenTimeLeft ≥ t) ∧
    (entry.exp - c.cacheMinTokenTimeLeft < t →
      (c.get t id).1 = none ∧
      (c.get t id).2.tokens = c.tokens.filter (fun p => !(p.1 == id))) := by
  by_cases hs : entry.exp < t + c.cacheMinTokenTimeLeft
  · constructor
    · constructor
      · intro hret
        exact absurd hret (by simp [Cache.get, h, hs])
      · intro hge
        exact absurd hs (by linarith)
    · intro _
      exact ⟨by simp [Cache.get, h, hs], by simp [Cache.get, h, hs]⟩
  · constructor
    · constructor
      · intro _
        linarith [not_lt.mp hs]
      · intro _
        simp [Cache.get, h, hs]
    · intro hlt
      exact absurd hs (by simp; linarith)

/-- C2 witness: the theorem applied to the concrete one-entry cache at
`t = 4`, where the entry is fresh. -/
theorem cache_get_freshness_witness :
    (cacheOne.get 4 "e").1 = some tokenA :=
  ((cache_get_freshness cacheOne 4 "e" (CacheEntry.mk 10 tokenA) (by rfl)).1).mpr
    (by norm_num [cacheOne])

/-- A second well-formed token: payload `{"exp": 20}`. -/
def tokenB : Jwt :=
  { raw := "D", payload := some (Json.obj [("exp", Json.num 20)]) }

/-- C3: monotonic replacement.  For an id already cached, a successful insert
replaces the stored pair exactly when the new token's decoded expiry is
strictly later than the stored one; otherwise the map is left unchanged, and
in every case the expiry stored for the id never decreases. -/
theorem cache_add_monotonic (c : Cache) (now : Rat) (id : EventId) (tok : Jwt)
    (e : Rat) (entry : CacheEntry)
    (hdec : expOfJwt tok = Except.ok e)
    (hold : c.tokens.lookup id = some entry) :
    (c.add now id tok).1 = Except.ok () ∧
    (entry.exp < e →
      (c.add now id tok).2.tokens = c.tokens.map
        (fun p => if p.1 == id then (p.1, CacheEntry.mk e tok) else p)) ∧
    (¬entry.exp < e → (c.add now id tok).2.tokens = c.tokens) ∧
    (∀ entry', (c.add now id tok).2.tokens.lookup id = some entry' →
      entry.exp ≤ entry'.exp) := by
  by_cases hlt : entry.exp < e
  · have htok : (c.add now id tok).2.tokens = c.tokens.map
        (fun p => if p.1 == id then (p.1, CacheEntry.mk e tok) else p) := by
      simp [Cache.add, hdec, hold, hlt, Cache.planPurge_tokens]
    refine ⟨by simp [Cache.add, hdec], fun _ => htok, fun h => absurd hlt h, ?_⟩
    intro entry' hE
    rw [htok, lookup_map_update, hold] at hE
    cases hE
    exact le_of_lt hlt
  · have htok : (c.add now id tok).2.tokens = c.tokens := by
      simp [Cache.add, hdec, hold, hlt, Cache.planPurge_tokens]
    refine ⟨by simp [Cache.add, hdec], fun h => absurd h hlt, fun _ => htok, ?_⟩
    intro entry' hE
    rw [htok, hold] at hE
    cases hE
    exact le_refl entry.exp

/-- C3 witness: inserting the later-expiring `tokenB` over `tokenA`
succeeds. -/
theorem cache_add_monotonic_witness :
    (cacheOne.add 0 "e" tokenB).1 = Except.ok () :=
  (cache_add_monotonic cacheOne 0 "e" tokenB 20 (CacheEntry.mk 10 tokenA)
    (by rfl) (by rfl)).1

/-- C4: a token whose payload carries no numeric `exp` claim makes the insert
fail with the decode error, and the cache state — the whole record, its map
included — is exactly what it was before the insert (`expOfJwt` throws
before `add` touches anything). -/
theorem cache_add_decode_error (c : Cache) (now : Rat) (id : EventId)
    (tok : Jwt)
    (h : ∀ fields, tok.payload = some (Json.obj fields) →
      ∀ q : Rat, fields.lookup "exp" ≠ some (Json.num q)) :
    ∃ m, c.add now id tok = (Except.error m, c) := by
  have hE : ∃ m, expOfJwt tok = Except.error m := by
    rcases hp : tok.payload with _ | j
    · exact ⟨"JWT payload is not decodable", by simp [expOfJwt, hp]⟩
    · cases j with
      | obj fields =>
        rcases hq : fields.lookup "exp" with _ | v
        · exact ⟨"JWT does not have valid 'exp' claim", by simp [expOfJwt, hp, hq]⟩
        · cases v with
          | num q => exact absurd hq (h fields hp q)
          | null =>
            exact ⟨"JWT does not have valid 'exp' claim", by simp [expOfJwt, hp, hq]⟩
          | bool b =>
            exact ⟨"JWT does not have valid 'exp' claim", by simp [expOfJwt, hp, hq]⟩
          | str s =>
            exact ⟨"JWT does not have valid 'exp' claim", by simp [expOfJwt, hp, hq]⟩
          | arr xs =>
            exact ⟨"JWT does not have valid 'exp' claim", by simp [expOfJwt, hp, hq]⟩
          | obj f2 =>
            exact ⟨"JWT does not have valid 'exp' claim", by simp [expOfJwt, hp, hq]⟩
      | null => exact ⟨"JWT does not have valid 'exp' claim", by simp [expOfJwt, hp]⟩
      | bool b => exact ⟨"JWT does not have valid 'exp' claim", by simp [expOfJwt, hp]⟩
      | num q => exact ⟨"JWT does not have valid 'exp' claim", by simp [expOfJwt, hp]⟩
      | str s => exact ⟨"JWT does not have valid 'exp' claim", by simp [expOfJwt, hp]⟩
      | arr xs => exact ⟨"JWT does not have valid 'exp' claim", by simp [expOfJwt, hp]⟩
  obtain ⟨m, hm⟩ := hE
  exact ⟨m, by simp [Cache.add, hm]⟩

/-- C4 witness: inserting the token whose `exp` claim is a string fails and
leaves the concrete cache untouched. -/
theorem cache_add_decode_error_witness :
    ∃ m, cacheOne.add 0 "e" tokenStrExp = (Except.error m, cacheOne) :=
  cache_add_decode_error cacheOne 0 "e" tokenStrExp (by
    intro fields hp q hq
    have h2 : Json.obj [("exp", Json.str "later")] = Json.obj fields := by
      simpa [tokenStrExp] using hp
    injection h2 with h3
    rw [← h3] at hq
    simp [List.lookup] at hq)

/-- C10: the frame of `Cache.get`.  A hit leaves the whole cache untouched;
the margin, flag and timers are never touched; entries under every other id
are unaffected; no entry is ever added or modified; and the map either stays
exactly as it was or the looked-up id's entry has been removed (and the call
returned none). -/
theorem cache_get_frame (c : Cache) (now : Rat) (id : EventId) :
    ((c.get now id).1.isSome = true → (c.get now id).2 = c) ∧
    ((c.get now id).2.cacheMinTokenTimeLeft = c.cacheMinTokenTimeLeft ∧
      (c.get now id).2.purgePlanned = c.purgePlanned ∧
      (c.get now id).2.timers = c.timers) ∧
    (∀ id', id' ≠ id →
      (c.get now id).2.tokens.lookup id' = c.tokens.lookup id') ∧
    (∀ id' entry', (c.get now id).2.tokens.lookup id' = some entry' →
      c.tokens.lookup id' = some entry') ∧
    ((c.get now id).2.tokens = c.tokens ∨
      ((c.get now id).1 = none ∧ (c.get now id).2.tokens.lookup id = none)) := by
  rcases hL : c.tokens.lookup id with _ | entry
  · have hget : c.get now id = (none, c) := by simp [Cache.get, hL]
    rw [hget]
    exact ⟨fun _ => rfl, ⟨rfl, rfl, rfl⟩, fun id' _ => rfl,
      fun _ _ h' => h', Or.inl rfl⟩
  · by_cases hs : entry.exp < now + c.cacheMinTokenTimeLeft
    · have hget : c.get now id =
          (none, { c with tokens := c.tokens.filter (fun p => !(p.1 == id)) }) := by
        simp [Cache.get, hL, hs]
      rw [hget]
      refine ⟨fun h => absurd h (by simp), ⟨rfl, rfl, rfl⟩, ?_, ?_, ?_⟩
      · intro id' hne
        exact lookup_filter_ne c.tokens id id' hne
      · intro id' e' h'
        by_cases hid : id' = id
        · rw [hid, lookup_filter_not_self] at h'
          exact absurd h' (by simp)
        · rw [← lookup_filter_ne c.tokens id id' hid]
          exact h'
      · exact Or.inr ⟨rfl, lookup_filter_not_self c.tokens id⟩
    · have hget : c.get now id = (some entry.token, c) := by
        simp [Cache.get, hL, hs]
      rw [hget]
      exact ⟨fun _ => rfl, ⟨rfl, rfl, rfl⟩, fun id' _ => rfl,
        fun _ _ h' => h', Or.inl rfl⟩

/-! Coalescer lemmas: how a run of arrivals grows the open batch, and what
one timer firing does. -/

/-- Folding a sequence of arrivals into an open batch: each appends its
waiter and adds its id to the batch's id set. -/
def joinAll (p : List (Nat × EventId) × List EventId)
    (ws : List (Nat × EventId)) : List (Nat × EventId) × List EventId :=
  ws.foldl (fun q w => (q.1 ++ [w], addId q.2 w.2)) p

theorem mem_addId_self (ids : List EventId) (id : EventId) :
    id ∈ addId ids id := by
  unfold addId
  split
  · next hcon => exact List.mem_of_elem_eq_true hcon
  · exact List.mem_append_right ids (List.mem_singleton.mpr rfl)

theorem mem_addId_mono (ids : List EventId) (id x : EventId) (hx : x ∈ ids) :
    x ∈ addId ids id := by
  unfold addId
  split
  · exact hx
  · exact List.mem_append_left _ hx

theorem mem_joinAll_of_acc (ws : List (Nat × EventId))
    (p : List (Nat × EventId) × List EventId) (x : EventId) (hx : x ∈ p.2) :
    x ∈ (joinAll p ws).2 := by
  induction ws generalizing p with
  | nil => exact hx
  | cons w ws ih => exact ih (p.1 ++ [w], addId p.2 w.2) (mem_addId_mono p.2 w.2 x hx)

theorem mem_joinAll (ws : List (Nat × EventId))
    (p : List (Nat × EventId) × List EventId) (w : Nat × EventId)
    (hw : w ∈ ws) : w.2 ∈ (joinAll p ws).2 := by
  induction ws generalizing p with
  | nil => cases hw
  | cons a as ih =>
    cases List.mem_cons.mp hw with
    | inl h =>
      subst h
      exact mem_joinAll_of_acc as (p.1 ++ [w], addId p.2 w.2) w.2
        (mem_addId_self p.2 w.2)
    | inr h => exact ih (p.1 ++ [a], addId p.2 a.2) h

theorem run_arrives (issuer : Issuer)
    (p : List (Nat × EventId) × List EventId) (ws : List (Nat × EventId))
    (calls : List (List EventId)) (results : List (Nat × Option Jwt)) :
    CoState.run true issuer ⟨some p, calls, results⟩
      (ws.map (fun w => CoEv.arrive w.1 w.2)) =
      ⟨some (joinAll p ws), calls, results⟩ := by
  induction ws generalizing p with
  | nil => rfl
  | cons w ws ih =>
    have hstep : CoState.step true issuer ⟨some p, calls, results⟩
        (CoEv.arrive w.1 w.2) =
        ⟨some (p.1 ++ [w], addId p.2 w.2), calls, results⟩ := by
      simp [CoState.step]
    calc CoState.run true issuer ⟨some p, calls, results⟩
          ((w :: ws).map (fun x => CoEv.arrive x.1 x.2))
        = CoState.run true issuer ⟨some (p.1 ++ [w], addId p.2 w.2), calls, results⟩
            (ws.map (fun x => CoEv.arrive x.1 x.2)) := by
          rw [List.map_cons]
          show CoState.run true issuer (CoState.step true issuer _ _) _ = _
          rw [hstep]
      _ = ⟨some (joinAll (p.1 ++ [w], addId p.2 w.2) ws), calls, results⟩ :=
          ih (p.1 ++ [w], addId p.2 w.2)
      _ = ⟨some (joinAll p (w :: ws)), calls, results⟩ := rfl

theorem run_arrives_closed (issuer : Issuer) (calls : List (List EventId))
    (results : List (Nat × Option Jwt)) (w : Nat × EventId)
    (ws : List (Nat × EventId)) :
    CoState.run true issuer ⟨none, calls, results⟩
      ((w :: ws).map (fun x => CoEv.arrive x.1 x.2)) =
      ⟨some (joinAll ([w], [w.2]) ws), calls, results⟩ := by
  have hstep : CoState.step true issuer ⟨none, calls, results⟩
      (CoEv.arrive w.1 w.2) = ⟨some ([w], [w.2]), calls, results⟩ := by
    simp [CoState.step]
  rw [List.map_cons]
  show CoState.run true issuer (CoState.step true issuer _ _) _ = _
  rw [hstep, run_arrives]

theorem run_single (batching : Bool) (issuer : Issuer) (s : CoState)
    (e : CoEv) :
    CoState.run batching issuer s [e] = CoState.step batching issuer s e := rfl

theorem step_fire (issuer : Issuer)
    (p : List (Nat × EventId) × List EventId) (calls : List (List EventId))
    (results : List (Nat × Option Jwt)) :
    CoState.step true issuer ⟨some p, calls, results⟩ CoEv.fire =
      ⟨none, calls ++ [p.2],
        results ++ p.1.map
          (fun w => (w.1, (getJwtsCallback issuer p.2).lookup w.2))⟩ := by
  obtain ⟨ws, ids⟩ := p
  simp [CoState.step]

/-- C6: batching coalescing.  From a fresh coalescer with a positive batch
window, the arrivals of one window produce exactly one issuer call whose id
set contains every arrived id; arrivals after the window's timer fired open
a new batch producing a second, independent issuer call, again losing no
id. -/
theorem batching_coalescing (issuer : Issuer) (a : Nat × EventId)
    (as : List (Nat × EventId)) (b : Nat × EventId)
    (bs : List (Nat × EventId)) :
    ∃ ids1 ids2,
      (CoState.run true issuer CoState.init
        (((a :: as).map (fun w => CoEv.arrive w.1 w.2)) ++ [CoEv.fire] ++
         ((b :: bs).map (fun w => CoEv.arrive w.1 w.2)) ++ [CoEv.fire])).calls
        = [ids1, ids2] ∧
      (∀ w ∈ a :: as, w.2 ∈ ids1) ∧
      (∀ w ∈ b :: bs, w.2 ∈ ids2) := by
  refine ⟨(joinAll ([a], [a.2]) as).2, (joinAll ([b], [b.2]) bs).2, ?_, ?_, ?_⟩
  · have hsplit : CoState.run true issuer CoState.init
        (((a :: as).map (fun w => CoEv.arrive w.1 w.2)) ++ [CoEv.fire] ++
         ((b :: bs).map (fun w => CoEv.arrive w.1 w.2)) ++ [CoEv.fire]) =
        CoState.run true issuer
          (CoState.run true issuer
            (CoState.run true issuer
              (CoState.run true issuer CoState.init
                ((a :: as).map (fun w => CoEv.arrive w.1 w.2)))
              [CoEv.fire])
            ((b :: bs).map (fun w => CoEv.arrive w.1 w.2)))
          [CoEv.fire] := by
      simp only [CoState.run, List.foldl_append]
    rw [hsplit]
    rw [show CoState.init = (⟨none, [], []⟩ : CoState) from rfl]
    rw [run_arrives_closed]
    simp only [run_single]
    rw [step_fire, run_arrives_closed, step_fire]
    simp
  · intro w hw
    cases List.mem_cons.mp hw with
    | inl h =>
      subst h
      exact mem_joinAll_of_acc as ([w], [w.2]) w.2 (List.mem_singleton.mpr rfl)
    | inr h => exact mem_joinAll as ([a], [a.2]) w h
  · intro w hw
    cases List.mem_cons.mp hw with
    | inl h =>
      subst h
      exact mem_joinAll_of_acc bs ([w], [w.2]) w.2 (List.mem_singleton.mpr rfl)
    | inr h => exact mem_joinAll bs ([b], [b.2]) w h

/-- C7: batch fan-out.  When a batch's timer fires, every caller that joined
it is resolved from the one shared issuer response: a caller whose id the
response maps receives the mapped token, and a caller whose id the response
omits receives none (not an error); every joined caller appears among the
resolved results. -/
theorem batch_fanout (issuer : Issuer) (ws : List (Nat × EventId))
    (ids : List EventId) (calls : List (List EventId))
    (results : List (Nat × Option Jwt)) :
    (CoState.step true issuer ⟨some (ws, ids), calls, results⟩
        CoEv.fire).results
      = results ++ ws.map
          (fun w => (w.1, (getJwtsCallback issuer ids).lookup w.2)) ∧
    (∀ w ∈ ws, (w.1, (getJwtsCallback issuer ids).lookup w.2)
      ∈ (CoState.step true issuer ⟨some (ws, ids), calls, results⟩
          CoEv.fire).results) ∧
    (∀ w ∈ ws, (∀ t : Jwt, (w.2, t) ∉ getJwtsCallback issuer ids) →
      (w.1, (none : Option Jwt))
        ∈ (CoState.step true issuer ⟨some (ws, ids), calls, results⟩
            CoEv.fire).results) := by
  have hres : (CoState.step true issuer ⟨some (ws, ids), calls, results⟩
      CoEv.fire).results = results ++ ws.map
        (fun w => (w.1, (getJwtsCallback issuer ids).lookup w.2)) := by
    rw [step_fire]
  refine ⟨hres, ?_, ?_⟩
  · intro w hw
    rw [hres]
    exact List.mem_append_right results (List.mem_map.mpr ⟨w, hw, rfl⟩)
  · intro w hw hnone
    have hl : (getJwtsCallback issuer ids).lookup w.2 = none :=
      lookup_eq_none_of_forall_not_mem (getJwtsCallback issuer ids) w.2 hnone
    rw [hres]
    refine List.mem_append_right results (List.mem_map.mpr ⟨w, hw, ?_⟩)
    rw [hl]

/-- The always-failing issuer used by the C5 witness. -/
def issuerFail : Issuer := fun _ => Except.error ()

/-- C5: issuer failure isolation.  When the issuer call of a batch errors,
`getJwtsCallback` catches it and yields the empty map, so every caller that
joined the batch resolves to none (no failure propagates); the batch slot is
already clear, and a subsequent arrival opens a fresh batch whose own issuer
call is made independently and resolves its caller normally. -/
theorem issuer_failure_isolation (issuer : Issuer)
    (ws : List (Nat × EventId)) (ids : List EventId)
    (calls : List (List EventId)) (results : List (Nat × Option Jwt))
    (c2 : Nat) (id2 : EventId)
    (herr : issuer ids = Except.error ()) :
    (CoState.step true issuer ⟨some (ws, ids), calls, results⟩
        CoEv.fire).results
      = results ++ ws.map (fun w => (w.1, (none : Option Jwt))) ∧
    (CoState.step true issuer ⟨some (ws, ids), calls, results⟩
        CoEv.fire).slot = none ∧
    (CoState.run true issuer
        (CoState.step true issuer ⟨some (ws, ids), calls, results⟩ CoEv.fire)
        [CoEv.arrive c2 id2, CoEv.fire]).calls
      = calls ++ [ids] ++ [[id2]] ∧
    (CoState.run true issuer
        (CoState.step true issuer ⟨some (ws, ids), calls, results⟩ CoEv.fire)
        [CoEv.arrive c2 id2, CoEv.fire]).results
      = results ++ ws.map (fun w => (w.1, (none : Option Jwt)))
        ++ [(c2, (getJwtsCallback issuer [id2]).lookup id2)] := by
  have hcb : getJwtsCallback issuer ids = [] := by
    simp [getJwtsCallback, herr]
  have h1 : CoState.step true issuer ⟨some (ws, ids), calls, results⟩
      CoEv.fire =
      ⟨none, calls ++ [ids],
        results ++ ws.map (fun w => (w.1, (none : Option Jwt)))⟩ := by
    rw [step_fire]
    simp [hcb]
  have harr : CoState.step true issuer
      (⟨none, calls ++ [ids],
        results ++ ws.map (fun w => (w.1, (none : Option Jwt)))⟩ : CoState)
      (CoEv.arrive c2 id2) =
      ⟨some ([(c2, id2)], [id2]), calls ++ [ids],
        results ++ ws.map (fun w => (w.1, (none : Option Jwt)))⟩ := by
    simp [CoState.step]
  have h2 : CoState.run true issuer
      (⟨none, calls ++ [ids],
        results ++ ws.map (fun w => (w.1, (none : Option Jwt)))⟩ : CoState)
      [CoEv.arrive c2 id2, CoEv.fire] =
      ⟨none, calls ++ [ids] ++ [[id2]],
        results ++ ws.map (fun w => (w.1, (none : Option Jwt)))
          ++ [(c2, (getJwtsCallback issuer [id2]).lookup id2)]⟩ := by
    simp only [CoState.run, List.foldl_cons, List.foldl_nil]
    rw [harr, step_fire]
    rfl
  exact ⟨by rw [h1], by rw [h1], by rw [h1, h2], by rw [h1, h2]⟩

/-- C5 witness: the theorem at a concrete failed batch of one caller. -/
theorem issuer_failure_isolation_witness :
    (CoState.step true issuerFail ⟨some ([(0, "e")], ["e"]), [], []⟩
        CoEv.fire).results = [(0, (none : Option Jwt))] :=
  (issuer_failure_isolation issuerFail [(0, "e")] ["e"] [] [] 1 "f" rfl).1

/-! The purge-timer protocol: the flag mirrors the outstanding timer. -/

/-- The invariant tying the `purgePlanned` flag to the timers the runtime
holds: exactly one timer is outstanding when the flag is set, none when it
is clear. -/
def TimerInv (c : Cache) : Prop :=
  c.timers.length = if c.purgePlanned then 1 else 0

theorem timerInv_planPurge (c : Cache) (now : Rat) (h : TimerInv c) :
    TimerInv (c.planPurge now) := by
  unfold Cache.planPurge
  split
  · exact h
  · next hp =>
    have hflag : c.purgePlanned = false := by
      revert hp
      cases c.purgePlanned <;> simp
    rw [TimerInv] at h
    rw [hflag] at h
    simp at h
    simp [TimerInv, h]

theorem timerInv_step (c : Cache) (e : CacheEv) (h : TimerInv c) :
    TimerInv (c.step e) := by
  cases e with
  | add now id tok =>
    show TimerInv (c.add now id tok).2
    unfold Cache.add
    cases hE : expOfJwt tok with
    | error m => exact h
    | ok e' =>
      rcases hL : c.tokens.lookup id with _ | entry
      · simp only [hL]
        exact timerInv_planPurge _ now h
      · simp only [hL]
        by_cases hlt : entry.exp < e'
        · simp only [if_pos hlt]
          exact timerInv_planPurge _ now h
        · simp only [if_neg hlt]
          exact timerInv_planPurge _ now h
  | get now id =>
    show TimerInv (c.get now id).2
    unfold Cache.get
    rcases hL : c.tokens.lookup id with _ | entry
    · exact h
    · by_cases hs : entry.exp < now + c.cacheMinTokenTimeLeft
      · simp only [if_pos hs]
        exact h
      · simp only [if_neg hs]
        exact h
  | fire now =>
    unfold Cache.step
    rcases ht : c.timers with _ | ⟨d, rest⟩
    · exact h
    · by_cases hd : d ≤ now
      · simp only [if_pos hd]
        have hflag : c.purgePlanned = true := by
          cases hb : c.purgePlanned with
          | true => rfl
          | false =>
            rw [TimerInv, ht, hb] at h
            simp at h
        have hrest : rest = [] := by
          rw [TimerInv, ht, hflag] at h
          simpa using h
        subst hrest
        unfold Cache.firePurge
        dsimp only
        split
        · exact timerInv_planPurge _ now (by simp [TimerInv, Cache.purgeStaleEntries])
        · simp [TimerInv, Cache.purgeStaleEntries]
      · simp only [if_neg hd]
        exact h

theorem timerInv_run (c : Cache) (es : List CacheEv) (h : TimerInv c) :
    TimerInv (Cache.run c es) := by
  induction es generalizing c with
  | nil => exact h
  | cons e es ih => exact ih (c.step e) (timerInv_step c e h)

theorem timerInv_reachable (c : Cache) (h : Cache.Reachable c) : TimerInv c := by
  obtain ⟨minLeft, es, rfl⟩ := h
  exact timerInv_run (Cache.init minLeft) es (by simp [TimerInv, Cache.init])

/-- C8 (amended at the empty-cache clause): in every reachable cache state at
most one purge timer is outstanding; arming from an unarmed state with
entries schedules the timer at `(minimum expiry) - minValidity + 1/2 s`
(the 500 ms buffer); a firing sweeps away exactly the entries stale at
firing time and re-arms exactly when entries remain; and from a state with
no entries and no outstanding timer, inserting a decodable token arms
exactly one timer.  (A stale lookup can empty the cache while the armed
timer is still outstanding, so "empty cache ⇒ no armed timer" does not hold
as a state invariant; the no-rearm guarantee holds at the purge sweep.) -/
theorem cache_purge_protocol (c : Cache) (h : Cache.Reachable c) :
    c.timers.length ≤ 1 ∧
    (∀ now : Rat, ¬c.purgePlanned → c.tokens ≠ [] →
      (c.planPurge now).purgePlanned = true ∧
      (c.planPurge now).timers =
        c.timers ++ [minExpOf c.tokens - c.cacheMinTokenTimeLeft + 1 / 2]) ∧
    (∀ (now d : Rat), c.timers = [d] → d ≤ now →
      (c.step (CacheEv.fire now)).tokens =
        c.tokens.filter
          (fun p => !(decide (p.2.exp < now + c.cacheMinTokenTimeLeft))) ∧
      ((c.step (CacheEv.fire now)).timers ≠ [] ↔
        c.tokens.filter
          (fun p => !(decide (p.2.exp < now + c.cacheMinTokenTimeLeft))) ≠ [])) ∧
    (∀ (now : Rat) (id : EventId) (tok : Jwt) (e : Rat),
      c.tokens = [] → c.timers = [] → expOfJwt tok = Except.ok e →
      (c.step (CacheEv.add now id tok)).timers.length = 1) := by
  have hinv : TimerInv c := timerInv_reachable c h
  refine ⟨?_, ?_, ?_, ?_⟩
  · rw [TimerInv] at hinv
    rw [hinv]
    split <;> simp
  · intro now hflag htok
    have hflag' : c.purgePlanned = false := by
      revert hflag
      cases c.purgePlanned <;> simp
    have hrat : now + (1000 * (minExpOf c.tokens - now -
        c.cacheMinTokenTimeLeft) + 500) / 1000 =
        minExpOf c.tokens - c.cacheMinTokenTimeLeft + 1 / 2 := by
      ring
    constructor
    · simp [Cache.planPurge, hflag']
    · simp only [Cache.planPurge, hflag', Bool.false_eq_true, if_false]
      rw [hrat]
  · intro now d htd hdle
    have hflag : c.purgePlanned = true := by
      cases hb : c.purgePlanned with
      | true => rfl
      | false =>
        rw [TimerInv, htd, hb] at hinv
        simp at hinv
    have hstep : c.step (CacheEv.fire now) =
        Cache.firePurge { c with timers := [] } now := by
      unfold Cache.step
      rw [htd]
      simp [hdle]
    rw [hstep]
    unfold Cache.firePurge
    dsimp only
    split
    · constructor
      · rw [Cache.planPurge_tokens]
        rfl
      · next hn =>
        constructor
        · intro _
          intro hf
          rw [show (c.tokens.filter (fun p =>
              !(decide (p.2.exp < now + c.cacheMinTokenTimeLeft)))) =
              (Cache.purgeStaleEntries { c with timers := [] } now).tokens
              from rfl] at hf
          rw [hf] at hn
          simp at hn
        · intro _
          simp [Cache.planPurge, Cache.purgeStaleEntries]
    · next hn =>
      have hps : (Cache.purgeStaleEntries { c with timers := ([] : List Rat) }
          now).tokens =
          c.tokens.filter
            (fun p => !(decide (p.2.exp < now + c.cacheMinTokenTimeLeft))) := rfl
      have hempty : c.tokens.filter
          (fun p => !(decide (p.2.exp < now + c.cacheMinTokenTimeLeft))) = [] := by
        rw [← hps]
        rcases hl : (Cache.purgeStaleEntries { c with timers := ([] : List Rat) }
            now).tokens with _ | ⟨x, xs⟩
        · rfl
        · rw [hl] at hn
          simp at hn
      refine ⟨hps, ?_, ?_⟩
      · intro hne
        exact absurd rfl hne
      · intro hne
        exact absurd hempty hne
  · intro now id tok e htok htim hdec
    have hflag : c.purgePlanned = false := by
      cases hb : c.purgePlanned with
      | false => rfl
      | true =>
        rw [TimerInv, htim, hb] at hinv
        simp at hinv
    show (c.add now id tok).2.timers.length = 1
    unfold Cache.add
    rw [hdec]
    simp only [htok, List.lookup_nil]
    simp [Cache.planPurge, hflag, htim]

/-- C8 witness: the theorem at the freshly constructed cache. -/
theorem cache_purge_protocol_witness : (Cache.init 5).timers.length ≤ 1 :=
  (cache_purge_protocol (Cache.init 5) ⟨5, [], rfl⟩).1

/-- C8 counterexample to the claim's "when the cache is empty no timer is
armed": insert a token (expiry 10, margin 5 — the purge timer is armed for
deadline 5.5), then look it up at `t = 5.25`, when it is stale: the lookup
evicts the only entry, leaving an empty cache while the armed timer is still
outstanding. -/
theorem cache_purge_empty_timer_cex :
    (Cache.run (Cache.init 5)
      [CacheEv.add 0 "e" tokenA, CacheEv.get (21 / 4) "e"]).tokens = [] ∧
    (Cache.run (Cache.init 5)
      [CacheEv.add 0 "e" tokenA, CacheEv.get (21 / 4) "e"]).timers =
      [11 / 2] := by
  constructor <;>
    norm_num [Cache.run, Cache.step, Cache.add, Cache.get, Cache.init,
      Cache.planPurge, minExpOf, expOfJwt, tokenA, List.lookup]

/-! The pipeline (C9): header injection and the possible outcomes. -/

theorem lookup_map_setKey (hs : List (String × String)) (k v : String)
    (hany : hs.any (fun h => h.1 == k) = true) :
    (hs.map (fun h => if h.1 == k then (k, v) else h)).lookup k = some v := by
  induction hs with
  | nil => cases hany
  | cons hd tl ih =>
    simp only [List.map_cons]
    cases hbeq : hd.1 == k with
    | true =>
      simp [List.lookup]
    | false =>
      rw [if_neg (by simp [hbeq])]
      have hb' : (k == hd.1) = false := beq_symm_false hd.1 k hbeq
      have hany' : tl.any (fun h => h.1 == k) = true := by
        simpa [List.any_cons, hbeq] using hany
      simp only [List.lookup, hb']
      exact ih hany'

theorem lookup_append_pair (hs : List (String × String)) (k v : String)
    (hnone : hs.any (fun h => h.1 == k) = false) :
    (hs ++ [(k, v)]).lookup k = some v := by
  induction hs with
  | nil => simp [List.lookup]
  | cons hd tl ih =>
    rw [List.any_cons] at hnone
    have h1 : (hd.1 == k) = false := by
      cases hx : hd.1 == k
      · rfl
      · rw [hx] at hnone
        simp at hnone
    have h2 : tl.any (fun h => h.1 == k) = false := by
      rw [h1] at hnone
      simpa using hnone
    have hb' : (k == hd.1) = false := beq_symm_false hd.1 k h1
    simp [List.lookup, hb', ih h2]

/-- The built request carries the bearer header. -/
theorem lookup_setHeader (hs : List (String × String)) (k v : String) :
    (setHeader hs k v).lookup k = some v := by
  unfold setHeader
  split
  · next hany => exact lookup_map_setKey hs k v hany
  · next hany =>
    exact lookup_append_pair hs k v (by revert hany; cases hs.any (fun h => h.1 == k) <;> simp)

/-- A concrete intercepted request on a trusted origin and matching path. -/
def reqStatic : Request :=
  { origin := "https://oc.example.com",
    pathname := "/static/xorgA/chanB/evt123/video.mp4",
    headers := [], corsMode := false }

/-- C9 counterexample: when the coalescer hands the pipeline a token whose
payload has no `exp` claim, `Cache.add` throws inside the `respondWith`
callback and the error escapes to the consuming application — a third
outcome beyond the claim's two. -/
theorem onFetch_decode_error_cex :
    (onFetch ["https://oc.example.com"] ["/static/"] true (Cache.init 5) 0
      (some tokenNoExp) reqStatic).1 =
      FetchOutcome.errored "JWT does not have valid 'exp' claim" := by
  decide

/-- C9 (amended: provided every token the coalescer hands over decodes to a
numeric expiry — the issuer's obligation): each handled request ends in one
of exactly two ways, forwarded with the bearer `Authorization` header
attached (when a token was available, cached or acquired) or the original
request going out unmodified (untrusted origin, unmatched path, or no token
— pass-through and plain forward are both the unmodified original); no
error is surfaced. -/
theorem onFetch_outcomes (trusted pathPfxs : List String) (cors : Bool)
    (cache : Cache) (now : Rat) (acquired : Option Jwt) (req : Request)
    (hdec : ∀ j, acquired = some j → ∃ e, expOfJwt j = Except.ok e) :
    (∃ jwt : Jwt,
      (onFetch trusted pathPfxs cors cache now acquired req).1 =
        FetchOutcome.forwarded (injectJwt cors req jwt) ∧
      (injectJwt cors req jwt).headers.lookup "Authorization" =
        some ("Bearer " ++ jwt.raw)) ∨
    (onFetch trusted pathPfxs cors cache now acquired req).1 =
      FetchOutcome.passThrough ∨
    (onFetch trusted pathPfxs cors cache now acquired req).1 =
      FetchOutcome.forwarded req := by
  cases hx : trusted.contains req.origin with
  | false =>
    have hnm : req.origin ∉ trusted := by
      intro hm
      have hel : trusted.contains req.origin = true :=
        List.elem_eq_true_of_mem hm
      rw [hx] at hel
      exact Bool.noConfusion hel
    right; left
    simp [onFetch, hx, hnm]
  | true =>
    have hmem : req.origin ∈ trusted := List.mem_of_elem_eq_true hx
    rcases hp : parsePath req.pathname pathPfxs with _ | parsed
    · right; left
      simp [onFetch, hx, hmem, hp]
    · rcases hg : cache.get now parsed.eventId with ⟨og, c1⟩
      cases og with
      | some jwt =>
        left
        refine ⟨jwt, ?_, lookup_setHeader req.headers "Authorization"
          ("Bearer " ++ jwt.raw)⟩
        simp [onFetch, hx, hmem, hp, hg]
      | none =>
        cases ha : acquired with
        | none =>
          right; right
          simp [onFetch, hx, hmem, hp, hg, ha]
        | some jwt =>
          obtain ⟨e, he⟩ := hdec jwt ha
          rcases hA : c1.add now parsed.eventId jwt with ⟨r, c2⟩
          cases r with
          | error m =>
            have : (c1.add now parsed.eventId jwt).1 = Except.ok () := by
              simp [Cache.add, he]
            rw [hA] at this
            exact absurd this (by simp)
          | ok u =>
            left
            refine ⟨jwt, ?_, lookup_setHeader req.headers "Authorization"
              ("Bearer " ++ jwt.raw)⟩
            simp [onFetch, hx, hmem, hp, hg, ha, hA]

/-- C9 witness: the theorem at a concrete request with no acquired token (the
hypothesis is vacuous), where the original request is forwarded
unmodified. -/
theorem onFetch_outcomes_witness :
    (∃ jwt : Jwt,
      (onFetch ["https://oc.example.com"] ["/static/"] true (Cache.init 5) 0
        none reqStatic).1 =
        FetchOutcome.forwarded (injectJwt true reqStatic jwt) ∧
      (injectJwt true reqStatic jwt).headers.lookup "Authorization" =
        some ("Bearer " ++ jwt.raw)) ∨
    (onFetch ["https://oc.example.com"] ["/static/"] true (Cache.init 5) 0
      none reqStatic).1 = FetchOutcome.passThrough ∨
    (onFetch ["https://oc.example.com"] ["/static/"] true (Cache.init 5) 0
      none reqStatic).1 = FetchOutcome.forwarded reqStatic :=
  onFetch_outcomes ["https://oc.example.com"] ["/static/"] true (Cache.init 5)
    0 none reqStatic (fun _ h => Option.noConfusion h)

end Jwtify
